import Mathlib

/-!
Verification of the habit data engine of the obsidian-habit-tracker plugin
(HabitService in the TypeScript source), against its natural-language
specification.

Strings are modelled as lists of characters (the TypeScript code manipulates
JavaScript strings by index; List Char gives the same sequence view).  The
regular expressions the service builds at runtime are fixed shapes, so each
of them is embedded as a dedicated deterministic matcher that follows the
JavaScript backtracking semantics of that particular pattern (leftmost match,
greedy or lazy quantifiers as written, optional groups tried greedily,
multiline anchors where the m flag is set, case folding where the i flag is
set).  The moment library calls (date formatting, day-of-week, validity) are
abstracted as function parameters, since none of the verified claims depends
on calendar arithmetic.
-/

abbrev Str := List Char

/-- JavaScript whitespace class \s (also the character set removed by
String.prototype.trim): ASCII whitespace plus the Unicode space characters. -/
def isJsWs (c : Char) : Bool :=
  c == ' ' || c == '\t' || c == '\n' || c == '\r' ||
  c == '\x0b' || c == '\x0c' || c.val == 0xa0 || c.val == 0x1680 ||
  (0x2000 ≤ c.val && c.val ≤ 0x200a) || c.val == 0x2028 || c.val == 0x2029 ||
  c.val == 0x202f || c.val == 0x205f || c.val == 0x3000 || c.val == 0xfeff

/-- JavaScript line terminators, relevant for the multiline anchors. -/
def isLineTerm (c : Char) : Bool :=
  c == '\n' || c == '\r' || c.val == 0x2028 || c.val == 0x2029

/-- Does the multiline anchor match at this position (suffix view)? -/
def isLineEnd : Str → Bool
  | [] => true
  | c :: _ => isLineTerm c

/-- String.prototype.trim: remove leading and trailing JS whitespace. -/
def trimStr (s : Str) : Str :=
  ((s.dropWhile isJsWs).reverse.dropWhile isJsWs).reverse

/-- Case-insensitive character comparison, as the regex i flag folds case. -/
def ciEq (a b : Char) : Bool := a.toLower == b.toLower

/-- Match a literal pattern case-insensitively at the head of s; return the
remainder after the pattern on success. -/
def litCI : Str → Str → Option Str
  | [], s => some s
  | _ :: _, [] => none
  | p :: ps, c :: cs => if ciEq p c then litCI ps cs else none

/-- Match a literal pattern case-sensitively at the head of s. -/
def litCS : Str → Str → Option Str
  | [], s => some s
  | _ :: _, [] => none
  | p :: ps, c :: cs => if p == c then litCS ps cs else none

/-!
Pattern of getHabitStatus and setHabitStatus (flags i, no m, no g):

  - \[([ x])\] NAME(?: \(value: ([^)]+)\))?

escapeRegex makes NAME a literal, so the embedded matcher compares it
literally (case-insensitively, for the i flag).  There is no end-of-line
anchor in this pattern.
-/

/-- One match of the get/set pattern: the captured checkbox character, the
optional captured value text, and the remainder of the subject after the
match. -/
structure P1Match where
  g1 : Char
  g2 : Option Str
  rest : Str
deriving DecidableEq, Repr

/-- Match the trailing ` \(value: ([^)]+)\)` group (case-insensitive, as in
the i-flagged patterns) at the head of s, returning the capture and the
remainder.  The greedy [^)]+ can only succeed by taking every character up to
the first closing parenthesis, which must exist and be preceded by at least
one captured character. -/
def valueTail (s : Str) : Option (Str × Str) :=
  match litCI (" (value: ".toList) s with
  | none => none
  | some s1 =>
    let cap := s1.takeWhile (fun c => !(c == ')'))
    if cap == [] then none
    else
      match s1.drop cap.length with
      | ')' :: s2 => some (cap, s2)
      | _ => none

/-- Try the get/set pattern at the current position. -/
def tryP1 (name : Str) (s : Str) : Option P1Match :=
  match litCI ("- [".toList) s with
  | none => none
  | some s1 =>
    match s1 with
    | [] => none
    | c :: s2 =>
      if ciEq c ' ' || ciEq c 'x' then
        match litCI ("] ".toList) s2 with
        | none => none
        | some s3 =>
          match litCI name s3 with
          | none => none
          | some s4 =>
            match valueTail s4 with
            | some (cap, s5) => some ⟨c, some cap, s5⟩
            | none => some ⟨c, none, s4⟩
      else none

/-- Leftmost match of the get/set pattern: the index where it matches and the
match data, scanning positions left to right as the JS engine does. -/
def firstP1 (name : Str) : Str → Option (Nat × P1Match)
  | [] =>
    match tryP1 name [] with
    | some m => some (0, m)
    | none => none
  | c :: rest =>
    match tryP1 name (c :: rest) with
    | some m => some (0, m)
    | none => (firstP1 name rest).map (fun p => (p.1 + 1, p.2))

/-- getHabitStatus, restricted to its pure content-level core: scan the
document text with the habit pattern; on a match report the checked state
(case-insensitive x) and the trimmed captured value. -/
def getStatusContent (name : Str) (content : Str) : Bool × Option Str :=
  match firstP1 name content with
  | none => (false, none)
  | some (_, m) => (m.g1.toLower == 'x', m.g2.map trimStr)

/-- getHabitStatus including the missing-document case (none = no file). -/
def getHabitStatus (name : Str) (file : Option Str) : Bool × Option Str :=
  match file with
  | none => (false, none)
  | some content => getStatusContent name content

/-!
JavaScript replacement template expansion used by String.prototype.replace:
dollar-dollar, dollar-ampersand, dollar-backquote, dollar-quote and
dollar-digit escapes; a digit reference beyond the group count stays literal,
named references are literal because none of the patterns here declares named
groups.
-/

/-- Index denoted by a digit character in a group reference, if any. -/
def digitIdx (c : Char) : Option Nat :=
  if '1' ≤ c ∧ c ≤ '9' then some (c.toNat - '0'.toNat) else none

/-- Expand a replacement template given the groups of the match, the matched
text, and the subject text before and after the match. -/
def expandTemplate (groups : List (Option Str)) (matched pre post : Str) : Str → Str
  | [] => []
  | c :: rest =>
    if c == '$' then
      match rest with
      | [] => ['$']
      | d :: r =>
        if d == '$' then '$' :: expandTemplate groups matched pre post r
        else if d == '&' then matched ++ expandTemplate groups matched pre post r
        else if d == Char.ofNat 96 then pre ++ expandTemplate groups matched pre post r
        else if d == Char.ofNat 39 then post ++ expandTemplate groups matched pre post r
        else
          match digitIdx d with
          | some n =>
            if n ≤ groups.length then
              ((groups.getD (n - 1) none).getD []) ++ expandTemplate groups matched pre post r
            else '$' :: expandTemplate groups matched pre post (d :: r)
          | none => '$' :: expandTemplate groups matched pre post (d :: r)
    else c :: expandTemplate groups matched pre post rest

/-!
Section location, findOrCreateHabitSection: the header pattern
^## Habits\s*$ with the m flag, searched with String.prototype.match
(first match), and the next-section pattern ^## searched in the substring
after the header match.
-/

/-- Length of the leading JS-whitespace run. -/
def wsRunLen (s : Str) : Nat := (s.takeWhile isJsWs).length

/-- Greedy \s* followed by the multiline end anchor: the largest k not above
the whitespace-run length such that position k is a line end (the JS engine
consumes greedily and backtracks until the anchor holds). -/
def bestDollar (s : Str) : Nat → Option Nat
  | 0 => if isLineEnd s then some 0 else none
  | k + 1 => if isLineEnd (s.drop (k + 1)) then some (k + 1) else bestDollar s k

/-- Try the header pattern at a line-start position; return the length of the
whole match (header text plus consumed whitespace) on success. -/
def headerAt (s : Str) : Option Nat :=
  match litCS ("## Habits".toList) s with
  | none => none
  | some s1 => (bestDollar s1 (wsRunLen s1)).map (fun k => 9 + k)

/-- First match of the header pattern: scan positions, only trying the
pattern where the multiline start anchor holds (index 0 or just after a line
terminator).  Returns (match index, match length). -/
def findHeaderAux : Nat → Bool → Str → Option (Nat × Nat)
  | pos, true, s =>
    match headerAt s with
    | some len => some (pos, len)
    | none =>
      match s with
      | [] => none
      | c :: rest => findHeaderAux (pos + 1) (isLineTerm c) rest
  | pos, false, s =>
    match s with
    | [] => none
    | c :: rest => findHeaderAux (pos + 1) (isLineTerm c) rest

def findHeader (s : Str) : Option (Nat × Nat) := findHeaderAux 0 true s

/-- First match of the next-section pattern ^## (m flag) in a string;
position 0 of the searched substring counts as a line start.  At each
position the pattern is tried only where the start anchor holds; an empty
remainder can never match the pattern. -/
def findNextSectionAux (pos : Nat) (atStart : Bool) : Str → Option Nat
  | [] => none
  | c :: rest =>
    if atStart ∧ (litCS ("## ".toList) (c :: rest)).isSome then some pos
    else findNextSectionAux (pos + 1) (isLineTerm c) rest

def findNextSection (s : Str) : Option Nat := findNextSectionAux 0 true s

/-- findOrCreateHabitSection: body start is just after the header match; the
section ends at the next line starting with the subsection marker, or at the
end of the document.  none models the (-1, -1) result. -/
def findHabitSection (content : Str) : Option (Nat × Nat) :=
  match findHeader content with
  | none => none
  | some (i, len) =>
    let start := i + len
    let e :=
      match findNextSection (content.drop start) with
      | some j => start + j
      | none => content.length
    some (start, e)

/-- The checkbox line setHabitStatus writes: the value annotation is included
only when a value is present and non-empty. -/
def mkNewLine (name : Str) (completed : Bool) (value : Option Str) : Str :=
  let checkbox := if completed then 'x' else ' '
  let valueStr :=
    match value with
    | some v => if v == [] then [] else (" (value: ".toList) ++ v ++ [')']
    | none => []
  ("- [".toList) ++ [checkbox] ++ ("] ".toList) ++ name ++ valueStr

/-- setHabitStatus, content-level core: if the habit pattern matches, replace
the first match with the new line (String.prototype.replace applies template
expansion to the replacement; the set pattern has no capture groups);
otherwise insert the new line, appending a fresh section when none exists and
inserting at the section end position otherwise. -/
def setContent (name : Str) (completed : Bool) (value : Option Str) (content : Str) : Str :=
  let newLine := mkNewLine name completed value
  match firstP1 name content with
  | some (i, m) =>
    let pre := content.take i
    let matched := (content.drop i).take (content.length - i - m.rest.length)
    pre ++ expandTemplate [] matched pre m.rest newLine ++ m.rest
  | none =>
    match findHabitSection content with
    | none =>
      content ++ (if content == [] then [] else ("\n\n".toList)) ++
        ("## Habits\n\n".toList) ++ newLine ++ ['\n']
    | some (_, e) => content.take e ++ newLine ++ ['\n'] ++ content.drop e

/-!
Detection pattern of autoDetectHabits, ensureHabitsForDate and
clearAllHabitsForDate (flags g and m, case-sensitive):

  - \[[ x]\] ([^(]+?)(?:\s*\(value: [^)]+\))?$

The first group is lazy, so the engine grows the captured name one character
at a time, preferring at each length the greedy optional annotation group and
then the bare line end.
-/

/-- Match `\(value: [^)]+\)` case-sensitively at the head of s. -/
def valueAnnotCS (s : Str) : Option Str :=
  match litCS ("(value: ".toList) s with
  | none => none
  | some s1 =>
    let cap := s1.takeWhile (fun c => !(c == ')'))
    if cap == [] then none
    else
      match s1.drop cap.length with
      | ')' :: s2 => some s2
      | _ => none

/-- Greedy `\s*` then the annotation then the line-end anchor, trying the
longest whitespace run first and backtracking downward. -/
def p4TailGroup (s : Str) : Nat → Option Str
  | 0 =>
    match valueAnnotCS s with
    | some rest => if isLineEnd rest then some rest else none
    | none => none
  | k + 1 =>
    match valueAnnotCS (s.drop (k + 1)) with
    | some rest => if isLineEnd rest then some rest else p4TailGroup s k
    | none => p4TailGroup s k

/-- The pattern tail `(?:\s*\(value: [^)]+\))?$` at the head of s: the
optional group is greedy, so a successful annotation match is preferred over
the empty alternative. -/
def p4Tail (s : Str) : Option Str :=
  match p4TailGroup s (wsRunLen s) with
  | some rest => some rest
  | none => if isLineEnd s then some s else none

/-- Lazy name capture: extend the candidate capture one non-parenthesis
character at a time, testing the pattern tail after each extension; the
shortest capture whose tail succeeds wins.  Returns (capture, remainder after
the whole match). -/
def tryP4Cap (acc : Str) : Str → Option (Str × Str)
  | [] => none
  | c :: rest =>
    if c == '(' then none
    else
      match p4Tail rest with
      | some after => some (acc ++ [c], after)
      | none => tryP4Cap (acc ++ [c]) rest

/-- Try the detection pattern at the current position (case-sensitive);
returns (captured name, remainder after the match). -/
def tryP4 (s : Str) : Option (Str × Str) :=
  match litCS ("- [".toList) s with
  | none => none
  | some s1 =>
    match s1 with
    | [] => none
    | c :: s2 =>
      if c == ' ' || c == 'x' then
        match litCS ("] ".toList) s2 with
        | none => none
        | some s3 => tryP4Cap [] s3
      else none

/-- All matches of the detection pattern (g flag): scan left to right,
resuming after each match.  Every match consumes at least seven characters
and every miss advances one character, so length-many steps always complete
the scan; fuel only serves as the termination measure. -/
def collectP4Fuel : Nat → Str → List Str
  | 0, _ => []
  | _ + 1, [] => []
  | fuel + 1, c :: rest =>
    match tryP4 (c :: rest) with
    | some (g1, after) => g1 :: collectP4Fuel fuel after
    | none => collectP4Fuel fuel rest

def collectP4 (s : Str) : List Str := collectP4Fuel s.length s

/-- JS Set insertion order with exact-equality dedup. -/
def addUnique (acc : List Str) (x : Str) : List Str :=
  if acc.contains x then acc else acc ++ [x]

/-- The habit-section body of a document: empty when the header is absent;
otherwise from just after the header match to the next section marker or the
document end. -/
def sectionBody (content : Str) : Str :=
  match findHeader content with
  | none => []
  | some (i, len) =>
    let afterSection := content.drop (i + len)
    match findNextSection afterSection with
    | some j => afterSection.take j
    | none => afterSection

/-- autoDetectHabits, content-level core: the date window iteration is
abstracted to the list of per-day document contents (none = missing file, in
the order the loop visits them); for each existing document the habit-section
body is scanned with the detection pattern and the trimmed names are added to
the set. -/
def autoDetect (docs : List (Option Str)) : List Str :=
  docs.foldl
    (fun acc doc =>
      match doc with
      | none => acc
      | some content =>
        if (findHeader content).isSome then
          (collectP4 (sectionBody content)).foldl (fun a g => addUnique a (trimStr g)) acc
        else acc)
    []

/-- The block of fresh unchecked lines ensureHabitsForDate inserts: one line
per habit that is non-blank after trimming and whose exact name is not among
the names already present. -/
def buildLines (existing : List Str) : List Str → Str
  | [] => []
  | h :: rest =>
    (if trimStr h ≠ [] ∧ ¬ existing.contains h then ("- [ ] ".toList) ++ h ++ ['\n'] else []) ++
      buildLines existing rest

/-- ensureHabitsForDate, content-level core: with an empty habit list the
function returns before touching the document; otherwise the section is
appended if absent, the section is re-located, the names present in its body
are collected (trimmed), and the missing habit lines are inserted as a block
at the body start position (or at the document end in the dead branch where
the header is still missing). -/
def ensureContent (habitNames : List Str) (content : Str) : Str :=
  if habitNames.isEmpty then content
  else
    let content1 :=
      if (findHeader content).isSome then content
      else content ++ (if content == [] then [] else ("\n\n".toList)) ++ ("## Habits\n\n".toList)
    let start :=
      match findHeader content1 with
      | some (i, len) => i + len
      | none => content1.length
    let existing := (collectP4 (sectionBody content1)).map trimStr
    let lines := buildLines existing habitNames
    if lines == [] then content1
    else content1.take start ++ lines ++ content1.drop start

/-!
Rename pattern of renameHabit (flags g, m, i):

  (- \[[ x]\] )OLD((?:\s*\(value: [^)]+\))?)$

Both groups capture the subject text verbatim; the line-end anchor is
mandatory here, unlike the get/set pattern.
-/

/-- One match of the rename pattern: both captured groups verbatim, the
matched old-name text, and the remainder after the match. -/
structure P6Match where
  g1 : Str
  oldM : Str
  g2 : Str
  rest : Str
deriving DecidableEq, Repr

/-- `\(value: [^)]+\)` case-insensitively, returning the consumed subject
text verbatim together with the remainder. -/
def valueAnnotCI (s : Str) : Option (Str × Str) :=
  match litCI ("(value: ".toList) s with
  | none => none
  | some s1 =>
    let cap := s1.takeWhile (fun c => !(c == ')'))
    if cap == [] then none
    else
      match s1.drop cap.length with
      | ')' :: s2 => some (s.take 8 ++ cap ++ [')'], s2)
      | _ => none

/-- Greedy `\s*` then the annotation then the line-end anchor, longest
whitespace run first; returns the group-2 text verbatim. -/
def p6TailGroup (s : Str) : Nat → Option (Str × Str)
  | 0 =>
    match valueAnnotCI s with
    | some (v, rest) => if isLineEnd rest then some (v, rest) else none
    | none => none
  | k + 1 =>
    match valueAnnotCI (s.drop (k + 1)) with
    | some (v, rest) =>
      if isLineEnd rest then some (s.take (k + 1) ++ v, rest) else p6TailGroup s k
    | none => p6TailGroup s k

/-- The rename-pattern tail `((?:\s*\(value: [^)]+\))?)$`: a greedy optional
annotation group, then the mandatory line-end anchor. -/
def p6Tail (s : Str) : Option (Str × Str) :=
  match p6TailGroup s (wsRunLen s) with
  | some (v, rest) => some (v, rest)
  | none => if isLineEnd s then some ([], s) else none

/-- Try the rename pattern at the current position. -/
def tryP6 (old : Str) (s : Str) : Option P6Match :=
  match litCI ("- [".toList) s with
  | none => none
  | some s1 =>
    match s1 with
    | [] => none
    | c :: s2 =>
      if ciEq c ' ' || ciEq c 'x' then
        match litCI ("] ".toList) s2 with
        | none => none
        | some s3 =>
          match litCI old s3 with
          | none => none
          | some s4 =>
            match p6Tail s4 with
            | some (g2, rest) =>
              some ⟨['-', ' ', '[', c, ']', ' '], s3.take old.length, g2, rest⟩
            | none => none
      else none

/-- Does the rename pattern match anywhere in s (RegExp.prototype.test)? -/
def testP6 (old : Str) : Str → Bool
  | [] => (tryP6 old []).isSome
  | c :: rest => (tryP6 old (c :: rest)).isSome || testP6 old rest

/-- Global replace with the rename pattern and the replacement template
dollar-1 newName dollar-2 (String.prototype.replace with the g flag):
non-matching characters are copied, each match is replaced by the expanded
template, scanning resumes after the match.  pre accumulates the subject text
already passed, for the template escapes that refer to it.  Every match
consumes at least six characters and every miss advances one, so length-many
fuel steps complete the scan. -/
def renameScanFuel (old newName : Str) : Nat → Str → Str → Str
  | 0, _, s => s
  | _ + 1, _, [] => []
  | fuel + 1, pre, c :: rest =>
    match tryP6 old (c :: rest) with
    | some m =>
      let matched := m.g1 ++ m.oldM ++ m.g2
      expandTemplate [some m.g1, some m.g2] matched pre m.rest
          (("$1".toList) ++ newName ++ ("$2".toList)) ++
        renameScanFuel old newName fuel (pre ++ matched) m.rest
    | none => c :: renameScanFuel old newName fuel (pre ++ [c]) rest

def replaceP6 (old newName s : Str) : Str := renameScanFuel old newName s.length [] s

/-- A document in the vault: its full path, its basename (path without folder
and extension), and its text. -/
structure NoteFile where
  path : Str
  basename : Str
  content : Str
deriving DecidableEq, Repr

/-- renameHabit, per-file step: skip files that are not markdown, not under
the configured folder, or whose basename is not a valid date under the
configured format (validDate abstracts the strict moment parse); skip files
without a habit section or whose section body the rename pattern does not
match; otherwise rewrite the section body by global replace and report the
file as modified. -/
def renameFile (validDate : Str → Bool) (folderPrefix old newName : Str)
    (f : NoteFile) : NoteFile × Bool :=
  if ¬ (".md".toList).isSuffixOf f.path then (f, false)
  else if folderPrefix ≠ [] ∧ ¬ folderPrefix.isPrefixOf f.path then (f, false)
  else if ¬ validDate f.basename then (f, false)
  else
    match findHeader f.content with
    | none => (f, false)
    | some (i, len) =>
      let sectionStart := i + len
      let afterSection := f.content.drop sectionStart
      let sectionEnd :=
        match findNextSection afterSection with
        | some j => sectionStart + j
        | none => f.content.length
      let before := f.content.take sectionStart
      let sectionContent := (f.content.drop sectionStart).take (sectionEnd - sectionStart)
      let after := f.content.drop sectionEnd
      if ¬ testP6 old sectionContent then (f, false)
      else ({ f with content := before ++ replaceP6 old newName sectionContent ++ after }, true)

/-- renameHabit over the whole vault: each file is processed independently;
the returned count is the number of files for which a replacement was
performed. -/
def renameHabit (validDate : Str → Bool) (folderPrefix old newName : Str)
    (files : List NoteFile) : List NoteFile × Nat :=
  let results := files.map (renameFile validDate folderPrefix old newName)
  (results.map Prod.fst, (results.filter (fun r => r.2)).length)

/-!
Streak and statistics engine: calculateStreaks and the statistics block of
getAllHabitData.  The day-of-week of a record (moment(date).day()) is
abstracted as the function parameter dow; completions are chronological,
oldest first, and the code iterates indices downward, which on the reversed
list (newest first) is the structural recursion below.
-/

structure HabitCompletion where
  date : Str
  completed : Bool
  value : Option Str
deriving DecidableEq, Repr

/-- isActiveDay: an empty active-day set means every day is active. -/
def isActiveDayC (dow : Str → Nat) (activeDays : List Nat) (c : HabitCompletion) : Bool :=
  activeDays.isEmpty || activeDays.contains (dow c.date)

/-- First pass of calculateStreaks on the reversed series: inactive days are
skipped, a completed active day extends the running streak and updates the
maximum, an incomplete active day resets the running streak. -/
def longestPass (act cmp : HabitCompletion → Bool) :
    List HabitCompletion → Nat → Nat → Nat
  | [], _, best => best
  | x :: rest, temp, best =>
    if ¬ act x then longestPass act cmp rest temp best
    else if cmp x then longestPass act cmp rest (temp + 1) (max best (temp + 1))
    else longestPass act cmp rest 0 best

/-- The while loop of the second pass: move startIdx down past inactive days
but never below index 0; on the reversed list this drops inactive elements
while keeping the final one. -/
def dropInactiveKeepLast (act : HabitCompletion → Bool) :
    List HabitCompletion → List HabitCompletion
  | [] => []
  | [x] => [x]
  | x :: rest => if act x then x :: rest else dropInactiveKeepLast act rest

/-- The grace step: skip the most recent element once when it is active,
incomplete, and not at index 0 of the series (rest nonempty on the reversed
list). -/
def applyGrace (act cmp : HabitCompletion → Bool) :
    List HabitCompletion → List HabitCompletion
  | [] => []
  | x :: rest => if act x ∧ ¬ cmp x ∧ rest ≠ [] then rest else x :: rest

/-- The counting loop of the second pass: skip inactive days, count completed
active days, break at the first incomplete active day. -/
def countStreak (act cmp : HabitCompletion → Bool) : List HabitCompletion → Nat
  | [] => 0
  | x :: rest =>
    if ¬ act x then countStreak act cmp rest
    else if cmp x then countStreak act cmp rest + 1
    else 0

/-- calculateStreaks: returns (currentStreak, longestStreak). -/
def calculateStreaks (dow : Str → Nat) (completions : List HabitCompletion)
    (activeDays : List Nat) : Nat × Nat :=
  if completions.isEmpty then (0, 0)
  else
    let act := isActiveDayC dow activeDays
    let cmp := fun c : HabitCompletion => c.completed
    let rev := completions.reverse
    let longest := longestPass act cmp rev 0 0
    let current := countStreak act cmp (applyGrace act cmp (dropInactiveKeepLast act rev))
    (current, longest)

/-- The statistics block of getAllHabitData: restrict to active days when the
active-day set is non-empty, count completions, and guard the rate against an
empty denominator.  Returns (totalDaysCompleted, totalActiveDays,
completionRate). -/
def habitStats (dow : Str → Nat) (activeDays : List Nat)
    (completions : List HabitCompletion) : Nat × Nat × ℚ :=
  let activeCompletions :=
    if activeDays.length > 0 then
      completions.filter (fun c => activeDays.contains (dow c.date))
    else completions
  let completedCount := (activeCompletions.filter (fun c => c.completed)).length
  let totalActiveDays := activeCompletions.length
  let completionRate : ℚ :=
    if totalActiveDays > 0 then ((completedCount : ℚ) / (totalActiveDays : ℚ)) * 100 else 0
  (completedCount, totalActiveDays, completionRate)

/-!
RenameHabitModal.doSubmit: the validation gate in front of
HabitService.renameHabit.  Only a submitted outcome invokes the service; the
other outcomes leave every document untouched.
-/

inductive RenameOutcome where
  | rejectedEmpty
  | closedNoop
  | rejectedDuplicate
  | submitted (newName : Str)
deriving DecidableEq, Repr

/-- doSubmit: trim the input; an empty result is rejected, a result equal to
the current name closes the modal without submitting, a result equal to any
existing habit name is rejected as a duplicate, anything else is submitted. -/
def doSubmit (input oldName : Str) (existingHabits : List Str) : RenameOutcome :=
  let newName := trimStr input
  if newName = [] then .rejectedEmpty
  else if newName = oldName then .closedNoop
  else if existingHabits.contains newName then .rejectedDuplicate
  else .submitted newName

/-- The full rename flow of the settings tab: the modal gate, then the
service call only on a submitted outcome. -/
def modalRenameFlow (validDate : Str → Bool) (folderPrefix : Str)
    (input oldName : Str) (existingHabits : List Str)
    (files : List NoteFile) : List NoteFile × Nat :=
  match doSubmit input oldName existingHabits with
  | .submitted newName => renameHabit validDate folderPrefix oldName newName files
  | _ => (files, 0)

/-!
Specification-side definitions, written from the wording of the spec and the
claims; the refinement theorems below compare them with the code-side
definitions above.
-/

/-- Modelled from the spec wording of the current-streak rule: starting from
the most recent day, skip backward over trailing inactive days; if the
resulting most recent active day is incomplete, skip it once unless it is the
only day in the series; then count consecutive completed active days
backward, inactive days skipped, stopping at the first incomplete active
day. -/
def specCurrentStreak (act cmp : HabitCompletion → Bool)
    (completions : List HabitCompletion) : Nat :=
  match completions.reverse.dropWhile (fun x => !(act x)) with
  | [] => 0
  | x :: rest =>
    if ¬ cmp x ∧ completions.length ≠ 1 then countStreak act cmp rest
    else countStreak act cmp (x :: rest)

/-- Modelled from the spec wording of renameHabit: each match of the rename
pattern is rewritten by splicing the new name between the two captured
groups, so the checked marker and the annotation are preserved verbatim. -/
def spliceScanFuel (old newName : Str) : Nat → Str → Str
  | 0, s => s
  | _ + 1, [] => []
  | fuel + 1, c :: rest =>
    match tryP6 old (c :: rest) with
    | some m => m.g1 ++ newName ++ m.g2 ++ spliceScanFuel old newName fuel m.rest
    | none => c :: spliceScanFuel old newName fuel rest

def spliceP6 (old newName s : Str) : Str := spliceScanFuel old newName s.length s

/-- A document is rewritten by renameHabit exactly when it is a markdown file
under the configured folder, its basename is a valid date, it has a habit
section, and the rename pattern matches the section body. -/
def fileMatchesRename (validDate : Str → Bool) (folderPrefix old : Str)
    (f : NoteFile) : Bool :=
  (".md".toList).isSuffixOf f.path &&
  (folderPrefix == [] || folderPrefix.isPrefixOf f.path) &&
  validDate f.basename &&
  (findHeader f.content).isSome &&
  testP6 old (sectionBody f.content)

/-- Modelled from the spec wording of renameHabit: rewrite the section body
by name splicing, leaving the text before and after the section untouched. -/
def spliceRewriteFile (old newName : Str) (f : NoteFile) : NoteFile :=
  match findHeader f.content with
  | none => f
  | some (i, len) =>
    let start := i + len
    let body := sectionBody f.content
    { f with
      content := f.content.take start ++ spliceP6 old newName body ++
        f.content.drop (start + body.length) }

/-!
General lemmas about the matchers.
-/

theorem litCI_self_append (p s : Str) : litCI p (p ++ s) = some s := by
  induction p with
  | nil => rfl
  | cons c cs ih => simp [litCI, ciEq, ih]

theorem tryP1_at_head (name tail : Str) :
    tryP1 name (("- [x] ".toList) ++ name ++ tail) =
      some (match valueTail tail with
            | some (cap, s5) => ⟨'x', some cap, s5⟩
            | none => ⟨'x', none, tail⟩) := by
  have e : ("- [x] ".toList) ++ name ++ tail
      = ("- [".toList) ++ ('x' :: (("] ".toList) ++ (name ++ tail))) := by simp
  rw [e]
  unfold tryP1
  have hx : (ciEq 'x' ' ' || ciEq 'x' 'x') = true := by decide
  simp only [litCI_self_append, hx, if_true]
  cases valueTail tail with
  | none => rfl
  | some p => cases p with | mk cap s5 => rfl

theorem tryP1_cons_none (name : Str) (c : Char) (s : Str) (h : c.toLower ≠ '-') :
    tryP1 name (c :: s) = none := by
  simp only [tryP1, litCI, ciEq]
  have h2 : ¬ ('-' = c.toLower) := fun e => h e.symm
  simp [h2]

theorem firstP1_cons_shift (name : Str) (c : Char) (s : Str)
    (h : tryP1 name (c :: s) = none) :
    firstP1 name (c :: s) = (firstP1 name s).map (fun p => (p.1 + 1, p.2)) := by
  simp [firstP1, h]

theorem getStatusContent_cons (name : Str) (c : Char) (s : Str) (h : c.toLower ≠ '-') :
    getStatusContent name (c :: s) = getStatusContent name s := by
  unfold getStatusContent
  rw [firstP1_cons_shift name c s (tryP1_cons_none name c s h)]
  cases hf : firstP1 name s with
  | none => simp
  | some p => simp

theorem firstP1_head_some (name : Str) (c : Char) (s : Str) (m : P1Match)
    (h : tryP1 name (c :: s) = some m) : firstP1 name (c :: s) = some (0, m) := by
  simp [firstP1, h]

/-- Claim C2, amended: getHabitStatus and setHabitStatus match the
regex-escaped habit name literally with the optional value annotation as a
trailing group, but the pattern is NOT anchored to end-of-line, so any
trailing text after the name is accepted; in particular a habit whose name is
a strict prefix of another habit name DOES match the longer habit line.  The
theorem exhibits this for every habit name and every extension of the
line. -/
theorem getHabitStatus_matches_unanchored (habit ext : Str) :
    (getStatusContent habit (("- [x] ".toList) ++ habit ++ ext)).1 = true := by
  have e : ("- [x] ".toList) ++ habit ++ ext = '-' :: ((" [x] ".toList) ++ (habit ++ ext)) := by
    simp
  have ht := tryP1_at_head habit ext
  cases hv : valueTail ext with
  | none =>
    rw [hv] at ht
    rw [e] at ht
    unfold getStatusContent
    rw [e, firstP1_head_some _ _ _ _ ht]
    simp
  | some p =>
    cases p with
    | mk cap s5 =>
      rw [hv] at ht
      rw [e] at ht
      unfold getStatusContent
      rw [e, firstP1_head_some _ _ _ _ ht]
      simp

/-- Claim C2, counterexample to the anchoring part as stated: the habit name
Run is a strict prefix of Runner, yet getHabitStatus reports the Runner line
as a completed Run, because the get/set pattern carries no end-of-line
anchor.  Under the claim the result would be (false, none). -/
theorem getHabitStatus_prefix_match_counterexample :
    getStatusContent ("Run".toList) ("- [x] Runner".toList) = (true, none) ∧
    (true, (none : Option Str)) ≠ (false, none) := by
  constructor
  · decide
  · decide

/-- Claim C1, counterexample: with a document whose habit section exists and
already has a body line, setHabitStatus for a habit with no checkbox line
places the new line at the END of the section, not as the first line of the
section body right after the header, which the claim asserts. -/
theorem setHabitStatus_insert_position_counterexample :
    setContent ("Run".toList) true none ("## Habits\n\n- [ ] Other\n".toList) =
      ("## Habits\n\n- [ ] Other\n- [x] Run\n".toList) ∧
    setContent ("Run".toList) true none ("## Habits\n\n- [ ] Other\n".toList) ≠
      ("## Habits\n- [x] Run\n\n- [ ] Other\n".toList) := by
  constructor
  · decide
  · decide

/-- Claim C1, amended: when the habit pattern does not match and the habit
section exists, setHabitStatus inserts the new checkbox line at the END
position of the section body (just before the next section marker, or at the
document end), not as the first line of the body. -/
theorem setHabitStatus_appends_at_section_end (name : Str) (completed : Bool)
    (value : Option Str) (content : Str) (s e : Nat)
    (hnm : firstP1 name content = none)
    (hs : findHabitSection content = some (s, e)) :
    setContent name completed value content =
      content.take e ++ mkNewLine name completed value ++ ['\n'] ++ content.drop e := by
  unfold setContent
  rw [hnm, hs]

theorem setHabitStatus_appends_at_section_end_witness :
    setContent ("Run".toList) true none ("## Habits\n\n- [ ] Other\n".toList) =
      (("## Habits\n\n- [ ] Other\n".toList).take 23) ++ mkNewLine ("Run".toList) true none ++
        ['\n'] ++ (("## Habits\n\n- [ ] Other\n".toList).drop 23) :=
  setHabitStatus_appends_at_section_end ("Run".toList) true none
    ("## Habits\n\n- [ ] Other\n".toList) 10 23 (by decide) (by decide)

/-- Claim C3, counterexample: writing a value that contains a closing
parenthesis and reading it back returns only the text before the first
closing parenthesis, because the read capture [^)]+ stops there; the
round-trip property fails for v = a)b even on a fresh empty document. -/
theorem setGet_roundtrip_paren_counterexample :
    getStatusContent ("Run".toList)
        (setContent ("Run".toList) true (some ("a)b".toList)) []) =
      (true, some ("a".toList)) ∧ ("a".toList : Str) ≠ ("a)b".toList) := by
  constructor
  · decide
  · decide

/-- Claim C4, code bug: ensureHabitsForDate is not idempotent.  The header
pattern consumes the newline after the header only when the next line is
blank, so with the document two-lines header then Run line and habit list
[Run, Jog] the missing Jog line is inserted BEFORE the newline, corrupting
the header line; the second call then fails to find the section, appends a
fresh one and inserts both habits again, so the content is not byte-identical
and duplicate lines appear. -/
theorem ensureHabitsForDate_not_idempotent :
    ensureContent ["Run".toList, "Jog".toList] ("## Habits\n- [ ] Run".toList) =
      ("## Habits- [ ] Jog\n\n- [ ] Run".toList) ∧
    ensureContent ["Run".toList, "Jog".toList]
        (ensureContent ["Run".toList, "Jog".toList] ("## Habits\n- [ ] Run".toList)) ≠
      ensureContent ["Run".toList, "Jog".toList] ("## Habits\n- [ ] Run".toList) := by
  constructor
  · decide
  · decide

/-- Claim C7, counterexample: a new name containing a replacement-template
escape is expanded by String.prototype.replace, so renaming Run to the
two-character name dollar-ampersand splices the whole matched text instead of
the new name; the habit-name token is not rewritten to the new name as the
claim requires. -/
theorem renameHabit_template_injection_counterexample :
    renameHabit (fun _ => true) [] ("Run".toList) ("$&".toList)
        [⟨"2024-01-01.md".toList, "2024-01-01".toList, "## Habits\n- [x] Run\n".toList⟩] =
      ([⟨"2024-01-01.md".toList, "2024-01-01".toList,
          "## Habits\n- [x] - [x] Run\n".toList⟩], 1) ∧
    ("## Habits\n- [x] - [x] Run\n".toList : Str) ≠ ("## Habits\n- [x] $&\n".toList) := by
  constructor
  · decide
  · decide

/-- Claim C10, counterexample: a checkbox line whose text after the name
contains a parenthetical that is not a value annotation is skipped entirely
by the detection pattern, so no truncated name is extracted; the claim
asserts the text from the first opening parenthesis onward is merely excluded
from the detected name, which would yield the name Run here. -/
theorem autoDetect_paren_line_skipped_counterexample :
    autoDetect [some ("## Habits\n- [x] Run (fast)\n".toList)] = [] ∧
    ([] : List Str) ≠ ["Run".toList] := by
  constructor
  · decide
  · decide

theorem getStatusContent_append_skip (name pre s : Str)
    (hp : ∀ c ∈ pre, c.toLower ≠ '-') :
    getStatusContent name (pre ++ s) = getStatusContent name s := by
  induction pre with
  | nil => rfl
  | cons c cs ih =>
    rw [List.cons_append, getStatusContent_cons _ _ _ (hp c (by simp))]
    exact ih (fun d hd => hp d (by simp [hd]))

theorem takeWhile_until_paren (v r : Str) (hv : ')' ∉ v) :
    (v ++ ')' :: r).takeWhile (fun c => !(c == ')')) = v := by
  induction v with
  | nil => simp [List.takeWhile]
  | cons c cs ih =>
    have hcponot : c ≠ ')' := fun e => hv (by rw [e]; exact List.mem_cons_self _ _)
    have hc : (c == ')') = false := by
      cases hb : (c == ')')
      · rfl
      · exact absurd (eq_of_beq hb) hcponot
    have hcs : ')' ∉ cs := fun hm => hv (by simp [hm])
    simp [List.takeWhile_cons, hc, ih hcs]

theorem valueTail_exact (v r : Str) (hne : v ≠ []) (hv : ')' ∉ v) :
    valueTail ((" (value: ".toList) ++ (v ++ ')' :: r)) = some (v, r) := by
  unfold valueTail
  rw [litCI_self_append]
  simp only [takeWhile_until_paren v r hv]
  have hb : (v == ([] : Str)) = false := by
    cases hbv : (v == ([] : Str))
    · rfl
    · exact absurd (eq_of_beq hbv) hne
  simp only [hb, if_false, Bool.false_eq_true]
  rw [List.drop_left]
  rfl

/-- Claim C3, amended: the set-then-get round-trip holds on a fresh (empty)
document for every habit name and every non-empty value that contains no
closing parenthesis and carries no leading or trailing whitespace; values
violating these conditions are truncated or trimmed on read-back. -/
theorem setGet_roundtrip_safe_value (h v : Str) (hne : v ≠ []) (hnop : ')' ∉ v)
    (htrim : trimStr v = v) :
    getStatusContent h (setContent h true (some v) []) = (true, some v) := by
  have hfp : firstP1 h [] = none := by
    have ht : tryP1 h [] = none := by
      unfold tryP1
      have : litCI ("- [".toList) [] = none := rfl
      rw [this]
    simp [firstP1, ht]
  have hfs : findHabitSection ([] : Str) = none := rfl
  have hvb : (v == ([] : Str)) = false := by
    cases hbv : (v == ([] : Str))
    · rfl
    · exact absurd (eq_of_beq hbv) hne
  have hset : setContent h true (some v) [] =
      ("## Habits\n\n".toList) ++
        ((("- [x] ".toList) ++ (h ++ ((" (value: ".toList) ++ (v ++ ')' :: '\n' :: []))))) := by
    unfold setContent
    rw [hfp, hfs]
    unfold mkNewLine
    simp [hvb]
  rw [hset]
  rw [getStatusContent_append_skip h ("## Habits\n\n".toList) _ (by decide)]
  have e : (("- [x] ".toList) ++ (h ++ ((" (value: ".toList) ++ (v ++ ')' :: '\n' :: [])))) =
      (("- [x] ".toList) ++ h ++ ((" (value: ".toList) ++ (v ++ ')' :: '\n' :: []))) := by
    simp
  rw [e]
  have ht := tryP1_at_head h ((" (value: ".toList) ++ (v ++ ')' :: '\n' :: []))
  rw [valueTail_exact v ('\n' :: []) hne hnop] at ht
  have e2 : ("- [x] ".toList) ++ h ++ ((" (value: ".toList) ++ (v ++ ')' :: '\n' :: [])) =
      '-' :: ((" [x] ".toList) ++ (h ++ ((" (value: ".toList) ++ (v ++ ')' :: '\n' :: [])))) := by
    simp
  rw [e2] at ht
  unfold getStatusContent
  rw [e2, firstP1_head_some _ _ _ _ ht]
  simp [htrim]

theorem setGet_roundtrip_safe_value_witness :
    getStatusContent ("Run".toList)
        (setContent ("Run".toList) true (some ("5k".toList)) []) =
      (true, some ("5k".toList)) :=
  setGet_roundtrip_safe_value ("Run".toList) ("5k".toList)
    (by decide) (by decide) (by decide)

/-- Claim C8, confirmed: when the trimmed new name equals an existing habit
name other than the one being renamed, the modal submit handler reports a
duplicate-name validation failure and the rename flow performs no service
call, leaving every document untouched and returning a zero count. -/
theorem duplicate_rename_rejected_before_write (validDate : Str → Bool)
    (folderPrefix input oldName : Str) (existingHabits : List Str)
    (files : List NoteFile)
    (hne : trimStr input ≠ [])
    (hnold : trimStr input ≠ oldName)
    (hdup : trimStr input ∈ existingHabits) :
    doSubmit input oldName existingHabits = .rejectedDuplicate ∧
    modalRenameFlow validDate folderPrefix input oldName existingHabits files =
      (files, 0) := by
  have hd : doSubmit input oldName existingHabits = .rejectedDuplicate := by
    unfold doSubmit
    simp [hne, hnold]
    exact hdup
  refine ⟨hd, ?_⟩
  unfold modalRenameFlow
  rw [hd]

theorem duplicate_rename_rejected_before_write_witness :
    doSubmit (" Jog ".toList) ("Run".toList) ["Run".toList, "Jog".toList] =
      .rejectedDuplicate ∧
    modalRenameFlow (fun _ => true) [] (" Jog ".toList) ("Run".toList)
        ["Run".toList, "Jog".toList]
        [⟨"2024-01-01.md".toList, "2024-01-01".toList, "## Habits\n- [x] Run\n".toList⟩] =
      ([⟨"2024-01-01.md".toList, "2024-01-01".toList, "## Habits\n- [x] Run\n".toList⟩], 0) :=
  duplicate_rename_rejected_before_write (fun _ => true) [] (" Jog ".toList)
    ("Run".toList) ["Run".toList, "Jog".toList]
    [⟨"2024-01-01.md".toList, "2024-01-01".toList, "## Habits\n- [x] Run\n".toList⟩]
    (by decide) (by decide) (by decide)

/-- Claim C6, confirmed: totalActiveDays counts the series days that are
active (every day when the active-day set is empty), totalDaysCompleted
counts the active days marked completed, and the completion rate is
100 times completed over total, with rate 0 when there are no active days. -/
theorem habitStats_totals_and_rate (dow : Str → Nat) (activeDays : List Nat)
    (completions : List HabitCompletion) :
    (habitStats dow activeDays completions).2.1 =
      (completions.filter (isActiveDayC dow activeDays)).length ∧
    (habitStats dow activeDays completions).1 =
      (completions.filter
        (fun c => isActiveDayC dow activeDays c && c.completed)).length ∧
    (habitStats dow activeDays completions).2.2 =
      (if (completions.filter (isActiveDayC dow activeDays)).length = 0 then (0 : ℚ)
       else 100 *
         ((completions.filter
            (fun c => isActiveDayC dow activeDays c && c.completed)).length : ℚ) /
         ((completions.filter (isActiveDayC dow activeDays)).length : ℚ)) := by
  have hact :
      (if activeDays.length > 0 then
        completions.filter (fun c => activeDays.contains (dow c.date))
      else completions) = completions.filter (isActiveDayC dow activeDays) := by
    cases activeDays with
    | nil =>
      have he : isActiveDayC dow [] = fun _ => true := by
        funext c
        simp [isActiveDayC]
      rw [if_neg (by simp), he, List.filter_true]
    | cons a as =>
      have he : isActiveDayC dow (a :: as) = fun c => (a :: as).contains (dow c.date) := by
        funext c
        unfold isActiveDayC
        rw [show (a :: as).isEmpty = false from rfl]
        simp
      rw [if_pos (by simp), he]
  have hcmp :
      (if activeDays.length > 0 then
        completions.filter (fun c => activeDays.contains (dow c.date))
      else completions).filter (fun c => c.completed) =
        completions.filter (fun c => isActiveDayC dow activeDays c && c.completed) := by
    rw [hact, List.filter_filter]
    exact List.filter_congr (fun c _ => by rw [Bool.and_comm])
  constructor
  · show (if activeDays.length > 0 then
        completions.filter (fun c => activeDays.contains (dow c.date))
      else completions).length = _
    rw [hact]
  constructor
  · show ((if activeDays.length > 0 then
        completions.filter (fun c => activeDays.contains (dow c.date))
      else completions).filter (fun c => c.completed)).length = _
    rw [hcmp]
  · show (if (if activeDays.length > 0 then
          completions.filter (fun c => activeDays.contains (dow c.date))
        else completions).length > 0 then
        ((((if activeDays.length > 0 then
            completions.filter (fun c => activeDays.contains (dow c.date))
          else completions).filter (fun c => c.completed)).length : ℚ) /
          (((if activeDays.length > 0 then
            completions.filter (fun c => activeDays.contains (dow c.date))
          else completions).length : ℚ))) * 100
      else 0) = _
    rw [hcmp, hact]
    rcases Nat.eq_zero_or_pos (completions.filter (isActiveDayC dow activeDays)).length with hz | hp
    · simp [hz]
    · rw [if_pos hp, if_neg (Nat.pos_iff_ne_zero.mp hp)]
      rw [div_mul_eq_mul_div, mul_comm]

/-!
Lemmas about the streak computations.
-/

theorem dropInactiveKeepLast_suffix (act : HabitCompletion → Bool)
    (l : List HabitCompletion) : dropInactiveKeepLast act l <:+ l := by
  induction l with
  | nil => exact List.suffix_refl _
  | cons x rest ih =>
    cases rest with
    | nil => exact List.suffix_refl _
    | cons y rest2 =>
      by_cases hx : act x = true
      · simp [dropInactiveKeepLast, hx]
      · simp only [dropInactiveKeepLast, hx, if_false]
        exact ih.trans (List.suffix_cons x (y :: rest2))

theorem applyGrace_suffix (act cmp : HabitCompletion → Bool)
    (l : List HabitCompletion) : applyGrace act cmp l <:+ l := by
  cases l with
  | nil => exact List.suffix_refl _
  | cons x rest =>
    by_cases h : act x = true ∧ ¬ cmp x = true ∧ rest ≠ []
    · simp only [applyGrace, if_pos h]
      exact List.suffix_cons x rest
    · simp only [applyGrace, if_neg h]
      exact List.suffix_refl _

theorem dropInactiveKeepLast_eq_dropWhile (act : HabitCompletion → Bool)
    (l : List HabitCompletion) (h : ∃ x ∈ l, act x = true) :
    dropInactiveKeepLast act l = l.dropWhile (fun x => !(act x)) := by
  induction l with
  | nil => simp at h
  | cons x rest ih =>
    cases rest with
    | nil =>
      have hx : act x = true := by
        rcases h with ⟨y, hy, hact⟩
        rw [List.mem_singleton] at hy
        rwa [hy] at hact
      simp [dropInactiveKeepLast, List.dropWhile_cons, hx]
    | cons y rest2 =>
      by_cases hx : act x = true
      · simp [dropInactiveKeepLast, List.dropWhile_cons, hx]
      · have hx' : act x = false := by simpa using hx
        have h2 : ∃ z ∈ y :: rest2, act z = true := by
          rcases h with ⟨z, hz, hact⟩
          rcases List.mem_cons.mp hz with hzx | hzr
          · rw [hzx] at hact; exact absurd hact hx
          · exact ⟨z, hzr, hact⟩
        simp only [dropInactiveKeepLast, hx', Bool.false_eq_true, if_false]
        rw [List.dropWhile_cons]
        simp only [hx', Bool.not_false, if_true]
        exact ih h2

theorem countStreak_all_inactive (act cmp : HabitCompletion → Bool)
    (l : List HabitCompletion) (h : ∀ x ∈ l, act x = false) :
    countStreak act cmp l = 0 := by
  induction l with
  | nil => rfl
  | cons x rest ih =>
    have hx : act x = false := h x (by simp)
    simp only [countStreak, hx, Bool.false_eq_true, not_false_iff, if_pos]
    exact ih (fun y hy => h y (by simp [hy]))

theorem dropWhile_head_active (act : HabitCompletion → Bool)
    (l : List HabitCompletion) (x : HabitCompletion) (rest : List HabitCompletion)
    (h : l.dropWhile (fun z => !(act z)) = x :: rest) : act x = true := by
  induction l with
  | nil => simp at h
  | cons y ys ih =>
    rw [List.dropWhile_cons] at h
    by_cases hy : act y = true
    · simp only [hy, Bool.not_true, Bool.false_eq_true, if_false] at h
      rw [(List.cons.injEq _ _ _ _).mp h |>.1] at hy
      exact hy
    · have hy' : act y = false := by simpa using hy
      simp only [hy', Bool.not_false, if_true] at h
      exact ih h

theorem current_streak_aux (act cmp : HabitCompletion → Bool) (l : List HabitCompletion) :
    countStreak act cmp (applyGrace act cmp (dropInactiveKeepLast act l)) =
      (match l.dropWhile (fun x => !(act x)) with
      | [] => 0
      | x :: rest =>
        if ¬ cmp x ∧ l.length ≠ 1 then countStreak act cmp rest
        else countStreak act cmp (x :: rest)) := by
  by_cases hex : ∃ x ∈ l, act x = true
  · rw [dropInactiveKeepLast_eq_dropWhile act l hex]
    cases hd : l.dropWhile (fun x => !(act x)) with
    | nil =>
      rcases hex with ⟨x, hx, hact⟩
      have := (List.dropWhile_eq_nil_iff.mp hd) x hx
      simp [hact] at this
    | cons x rest =>
      have hx : act x = true := dropWhile_head_active act l x rest hd
      by_cases hc : cmp x = true
      · have hg : applyGrace act cmp (x :: rest) = x :: rest := by
          simp [applyGrace, hc]
        rw [hg]
        simp [hc]
      · cases rest with
        | nil =>
          have hg : applyGrace act cmp [x] = [x] := by
            simp [applyGrace]
          rw [hg]
          have h0 : countStreak act cmp [x] = 0 := by
            simp [countStreak, hx, hc]
          rw [h0]
          by_cases hl : l.length = 1
          · simp [hl, h0]
          · simp [hl, hc, countStreak]
        | cons y rest2 =>
          have hg : applyGrace act cmp (x :: y :: rest2) = y :: rest2 := by
            simp [applyGrace, hx, hc]
          rw [hg]
          have hlen : l.length ≠ 1 := by
            have h2 : (x :: y :: rest2).length ≤ l.length := by
              rw [← hd]
              exact (List.dropWhile_suffix _).sublist.length_le
            simp only [List.length_cons] at h2
            omega
          simp [hc, hlen]
  · push_neg at hex
    have hall : ∀ x ∈ l, act x = false := by
      intro x hx
      have := hex x hx
      simpa using this
    have hnil : l.dropWhile (fun x => !(act x)) = [] := by
      refine List.dropWhile_eq_nil_iff.mpr ?_
      intro x hx
      simp [hall x hx]
    rw [hnil]
    refine countStreak_all_inactive act cmp _ ?_
    intro x hx
    have hm : x ∈ l :=
      ((applyGrace_suffix act cmp _).sublist.trans
        (dropInactiveKeepLast_suffix act l).sublist).mem hx
    exact hall x hm

/-- Claim C5, confirmed: the current streak is computed exactly as described
by the spec (skip trailing inactive days, skip an incomplete most recent
active day once unless it is the only day of the series, then count
consecutive completed active days backward, skipping inactive days and
stopping at the first incomplete active day), and the series of three
completed days followed by an incomplete day with every day active yields
currentStreak three and longestStreak three. -/
theorem calculateStreaks_current_matches_spec :
    (∀ (dow : Str → Nat) (activeDays : List Nat) (completions : List HabitCompletion),
      (calculateStreaks dow completions activeDays).1 =
        specCurrentStreak (isActiveDayC dow activeDays) (fun c => c.completed) completions) ∧
    calculateStreaks (fun _ => 0)
        [⟨[], true, none⟩, ⟨[], true, none⟩, ⟨[], true, none⟩, ⟨[], false, none⟩] [] =
      (3, 3) := by
  constructor
  · intro dow activeDays completions
    unfold calculateStreaks specCurrentStreak
    by_cases hemp : completions.isEmpty
    · have : completions = [] := by
        cases completions with
        | nil => rfl
        | cons a l => simp [List.isEmpty] at hemp
      subst this
      simp
    · simp only [hemp, Bool.false_eq_true, if_false]
      have := current_streak_aux (isActiveDayC dow activeDays)
        (fun c => c.completed) completions.reverse
      rw [List.length_reverse] at this
      exact this
  · decide

theorem longestPass_ge_best (act cmp : HabitCompletion → Bool)
    (l : List HabitCompletion) (temp best : Nat) :
    best ≤ longestPass act cmp l temp best := by
  induction l generalizing temp best with
  | nil => simp [longestPass]
  | cons x rest ih =>
    by_cases hx : act x = true
    · by_cases hc : cmp x = true
      · simp only [longestPass, hx, hc, not_true, if_false, if_true]
        exact (le_max_left best (temp + 1)).trans (ih _ _)
      · simp only [longestPass, hx, hc, not_true, if_false, if_true]
        exact ih _ _
    · simp only [longestPass, hx, not_false_iff, if_true]
      exact ih _ _

theorem longestPass_mono (act cmp : HabitCompletion → Bool) (l : List HabitCompletion)
    (t t' b b' : Nat) (ht : t' ≤ t) (hb : b' ≤ b) :
    longestPass act cmp l t' b' ≤ longestPass act cmp l t b := by
  induction l generalizing t t' b b' with
  | nil => simpa [longestPass] using hb
  | cons x rest ih =>
    by_cases hx : act x = true
    · by_cases hc : cmp x = true
      · simp only [longestPass, hx, hc, not_true, if_false, if_true]
        exact ih _ _ _ _ (Nat.succ_le_succ ht) (max_le_max hb (Nat.succ_le_succ ht))
      · simp only [longestPass, hx, hc, not_true, if_false, if_true]
        exact ih _ _ _ _ le_rfl hb
    · simp only [longestPass, hx, not_false_iff, if_true]
      exact ih _ _ _ _ ht hb

theorem countStreak_le_longestPass (act cmp : HabitCompletion → Bool)
    (l : List HabitCompletion) (t b : Nat) (htb : t ≤ b) :
    t + countStreak act cmp l ≤ longestPass act cmp l t b := by
  induction l generalizing t b with
  | nil => simpa [countStreak, longestPass] using htb
  | cons x rest ih =>
    by_cases hx : act x = true
    · by_cases hc : cmp x = true
      · simp only [countStreak, longestPass, hx, hc, not_true, if_false, if_true]
        have h := ih (t + 1) (max b (t + 1)) (le_max_right _ _)
        omega
      · simp only [countStreak, longestPass, hx, hc, not_true, Bool.false_eq_true,
          if_false, if_true]
        have h := longestPass_ge_best act cmp rest 0 b
        omega
    · simp only [countStreak, longestPass, hx, not_false_iff, if_true]
      exact ih t b htb

theorem longestPass_prefix_ge (act cmp : HabitCompletion → Bool)
    (pre l : List HabitCompletion) :
    longestPass act cmp l 0 0 ≤ longestPass act cmp (pre ++ l) 0 0 := by
  induction pre with
  | nil => simp
  | cons p pre2 ih =>
    rw [List.cons_append]
    by_cases hp : act p = true
    · by_cases hc : cmp p = true
      · simp only [longestPass, hp, hc, not_true, if_false, if_true]
        exact ih.trans (longestPass_mono act cmp (pre2 ++ l) 1 0 (max 0 1) 0
          (by omega) (by omega))
      · simp only [longestPass, hp, hc, not_true, if_false, if_true]
        exact ih
    · simp only [longestPass, hp, not_false_iff, if_true]
      exact ih

/-- Claim C9, confirmed: for every completion series and active-day set the
streak pair returned by calculateStreaks satisfies currentStreak at most
longestStreak (both values are natural numbers, so they are also at least
zero). -/
theorem currentStreak_le_longestStreak (dow : Str → Nat)
    (completions : List HabitCompletion) (activeDays : List Nat) :
    (calculateStreaks dow completions activeDays).1 ≤
      (calculateStreaks dow completions activeDays).2 := by
  unfold calculateStreaks
  by_cases hemp : completions.isEmpty
  · simp [hemp]
  · simp only [hemp, Bool.false_eq_true, if_false]
    have hsuf :
        applyGrace (isActiveDayC dow activeDays) (fun c => c.completed)
            (dropInactiveKeepLast (isActiveDayC dow activeDays) completions.reverse) <:+
          completions.reverse :=
      (applyGrace_suffix _ _ _).trans (dropInactiveKeepLast_suffix _ _)
    rcases hsuf with ⟨pre, hpre⟩
    have h1 := countStreak_le_longestPass (isActiveDayC dow activeDays)
      (fun c => c.completed)
      (applyGrace (isActiveDayC dow activeDays) (fun c => c.completed)
        (dropInactiveKeepLast (isActiveDayC dow activeDays) completions.reverse)) 0 0 le_rfl
    have h2 := longestPass_prefix_ge (isActiveDayC dow activeDays)
      (fun c => c.completed) pre
      (applyGrace (isActiveDayC dow activeDays) (fun c => c.completed)
        (dropInactiveKeepLast (isActiveDayC dow activeDays) completions.reverse))
    rw [hpre] at h2
    simpa using h1.trans h2

/-!
Lemmas about trimming and the detection scan, for the auto-detection claim.
-/

theorem dropWhile_head_false {α : Type} (p : α → Bool) (l : List α) (x : α)
    (rest : List α) (h : l.dropWhile p = x :: rest) : p x = false := by
  induction l with
  | nil => simp at h
  | cons y ys ih =>
    rw [List.dropWhile_cons] at h
    by_cases hy : p y = true
    · rw [if_pos hy] at h
      exact ih h
    · have hy' : p y = false := by simpa using hy
      rw [hy', if_neg (by simp)] at h
      rw [← ((List.cons.injEq _ _ _ _).mp h).1]
      exact hy'

theorem dropWhile_idem {α : Type} (p : α → Bool) (l : List α) :
    (l.dropWhile p).dropWhile p = l.dropWhile p := by
  cases hd : l.dropWhile p with
  | nil => rfl
  | cons x rest =>
    rw [List.dropWhile_cons, dropWhile_head_false p l x rest hd]
    simp

theorem trimStr_subset (s : Str) : ∀ c ∈ trimStr s, c ∈ s := by
  intro c hc
  unfold trimStr at hc
  rw [List.mem_reverse] at hc
  have h1 := (List.dropWhile_suffix isJsWs).sublist.subset hc
  rw [List.mem_reverse] at h1
  exact (List.dropWhile_suffix isJsWs).sublist.subset h1

theorem trim_head_not_ws (s : Str) : (trimStr s).dropWhile isJsWs = trimStr s := by
  cases hd : trimStr s with
  | nil => rfl
  | cons x rest =>
    have hpref : (x :: rest) <+: s.dropWhile isJsWs := by
      rw [← hd]
      show ((s.dropWhile isJsWs).reverse.dropWhile isJsWs).reverse <+: s.dropWhile isJsWs
      rw [← List.reverse_suffix, List.reverse_reverse]
      exact List.dropWhile_suffix _
    rcases hpref with ⟨t, ht⟩
    have hx : isJsWs x = false := by
      refine dropWhile_head_false isJsWs s x (rest ++ t) ?_
      rw [← ht]
      simp
    rw [List.dropWhile_cons, hx]
    simp

theorem trimStr_idem (s : Str) : trimStr (trimStr s) = trimStr s := by
  have h1 : (trimStr s).dropWhile isJsWs = trimStr s := trim_head_not_ws s
  have h2 : (trimStr s).reverse = ((s.dropWhile isJsWs).reverse).dropWhile isJsWs := by
    unfold trimStr
    rw [List.reverse_reverse]
  show (((trimStr s).dropWhile isJsWs).reverse.dropWhile isJsWs).reverse = trimStr s
  rw [h1, h2, dropWhile_idem, ← h2, List.reverse_reverse]

theorem tryP4Cap_no_paren (s : Str) : ∀ (acc g after : Str),
    tryP4Cap acc s = some (g, after) → (∀ c ∈ acc, c ≠ '(') → ∀ c ∈ g, c ≠ '(' := by
  induction s with
  | nil =>
    intro acc g after h
    simp [tryP4Cap] at h
  | cons c rest ih =>
    intro acc g after h hacc
    unfold tryP4Cap at h
    by_cases hc : (c == '(') = true
    · rw [if_pos hc] at h
      simp at h
    · rw [if_neg hc] at h
      have hcne : c ≠ '(' := fun e => hc (by rw [e]; rfl)
      have hacc2 : ∀ d ∈ acc ++ [c], d ≠ '(' := by
        intro d hd
        rcases List.mem_append.mp hd with h1 | h2
        · exact hacc d h1
        · rw [List.mem_singleton.mp h2]
          exact hcne
      cases hp : p4Tail rest with
      | some after2 =>
        rw [hp] at h
        have hg : g = acc ++ [c] := ((Prod.mk.injEq _ _ _ _).mp (Option.some.inj h)).1.symm
        rw [hg]
        exact hacc2
      | none =>
        rw [hp] at h
        exact ih (acc ++ [c]) g after h hacc2

theorem tryP4_no_paren (s g after : Str) (h : tryP4 s = some (g, after)) :
    ∀ c ∈ g, c ≠ '(' := by
  unfold tryP4 at h
  split at h
  · exact absurd h (by simp)
  · split at h
    · exact absurd h (by simp)
    · split at h
      · split at h
        · exact absurd h (by simp)
        · exact tryP4Cap_no_paren _ [] g after h (by simp)
      · exact absurd h (by simp)

theorem collectP4Fuel_no_paren (fuel : Nat) : ∀ (s g : Str),
    g ∈ collectP4Fuel fuel s → ∀ c ∈ g, c ≠ '(' := by
  induction fuel with
  | zero =>
    intro s g h
    simp [collectP4Fuel] at h
  | succ fuel2 ih =>
    intro s g h
    cases s with
    | nil => simp [collectP4Fuel] at h
    | cons c rest =>
      unfold collectP4Fuel at h
      cases ht : tryP4 (c :: rest) with
      | some p =>
        rw [ht] at h
        rcases List.mem_cons.mp h with h1 | h2
        · rw [h1]
          exact tryP4_no_paren _ _ _ ht
        · exact ih _ g h2
      | none =>
        rw [ht] at h
        exact ih _ g h

theorem foldl_addUnique_prop (P : Str → Prop) (gs : List Str) (acc : List Str)
    (hacc : ∀ n ∈ acc, P n) (hg : ∀ g ∈ gs, P (trimStr g)) :
    ∀ n ∈ gs.foldl (fun a g => addUnique a (trimStr g)) acc, P n := by
  induction gs generalizing acc with
  | nil => exact hacc
  | cons g gs2 ih =>
    intro n hn
    refine ih (addUnique acc (trimStr g)) ?_ (fun g2 hg2 => hg g2 (by simp [hg2])) n hn
    intro m hm
    unfold addUnique at hm
    by_cases hc : acc.contains (trimStr g) = true
    · rw [if_pos hc] at hm
      exact hacc m hm
    · rw [if_neg hc] at hm
      rcases List.mem_append.mp hm with h1 | h2
      · exact hacc m h1
      · rw [List.mem_singleton.mp h2]
        exact hg g (by simp)

theorem autoDetect_foldl_prop (P : Str → Prop)
    (hP : ∀ content : Str, ∀ g ∈ collectP4 (sectionBody content), P (trimStr g))
    (docs : List (Option Str)) (acc : List Str) (hacc : ∀ n ∈ acc, P n) :
    ∀ n ∈ docs.foldl
        (fun acc doc =>
          match doc with
          | none => acc
          | some content =>
            if (findHeader content).isSome then
              (collectP4 (sectionBody content)).foldl
                (fun a g => addUnique a (trimStr g)) acc
            else acc)
        acc, P n := by
  induction docs generalizing acc with
  | nil => exact hacc
  | cons doc docs2 ih =>
    intro n hn
    refine ih _ ?_ n hn
    cases doc with
    | none => exact hacc
    | some content =>
      dsimp only
      by_cases hh : (findHeader content).isSome = true
      · rw [if_pos hh]
        exact foldl_addUnique_prop P _ acc hacc (fun g hg => hP content g hg)
      · rw [if_neg hh]
        exact hacc

/-- Claim C10, amended: every habit name returned by autoDetectHabits has no
leading or trailing whitespace and contains no opening parenthesis; however a
checkbox line is only detected at all when the text after the name is empty
or a single well-formed value annotation ending the line, so a line with any
other parenthetical is skipped entirely rather than contributing a truncated
name. -/
theorem autoDetect_names_trimmed_no_paren (docs : List (Option Str)) (name : Str)
    (h : name ∈ autoDetect docs) : trimStr name = name ∧ '(' ∉ name := by
  have hP : ∀ content : Str, ∀ g ∈ collectP4 (sectionBody content),
      trimStr (trimStr g) = trimStr g ∧ '(' ∉ trimStr g := by
    intro content g hg
    refine ⟨trimStr_idem g, ?_⟩
    intro hmem
    exact collectP4Fuel_no_paren _ _ g hg '(' (trimStr_subset g '(' hmem) rfl
  exact autoDetect_foldl_prop (fun n => trimStr n = n ∧ '(' ∉ n) hP docs [] (by simp) name h

theorem autoDetect_names_trimmed_no_paren_witness :
    trimStr ("Run".toList) = ("Run".toList) ∧ '(' ∉ ("Run".toList) :=
  autoDetect_names_trimmed_no_paren [some ("## Habits\n- [ ] Run\n".toList)]
    ("Run".toList) (by decide)

/-!
Lemmas for the rename claim: with a replacement name free of dollar escapes,
the template-based replace equals the plain name splice.
-/

theorem expandTemplate_cons_lit (groups : List (Option Str)) (matched pre post : Str)
    (c : Char) (rest : Str) (hc : (c == '$') = false) :
    expandTemplate groups matched pre post (c :: rest) =
      c :: expandTemplate groups matched pre post rest := by
  conv_lhs => rw [expandTemplate.eq_def]
  dsimp only
  rw [hc]
  simp

theorem expandTemplate_no_dollar (groups : List (Option Str)) (matched pre post : Str)
    (t rest : Str) (ht : '$' ∉ t) :
    expandTemplate groups matched pre post (t ++ rest) =
      t ++ expandTemplate groups matched pre post rest := by
  induction t with
  | nil => rfl
  | cons c cs ih =>
    have hc : (c == '$') = false := by
      cases hb : (c == '$')
      · rfl
      · exact absurd (by rw [eq_of_beq hb]; exact List.mem_cons_self _ _) ht
    rw [List.cons_append, expandTemplate_cons_lit groups matched pre post c _ hc,
      ih (fun hm => ht (List.mem_cons_of_mem c hm))]
    rfl

theorem expandTemplate_splice (g1 g2 matched pre post newName : Str)
    (hd : '$' ∉ newName) :
    expandTemplate [some g1, some g2] matched pre post
        (("$1".toList) ++ newName ++ ("$2".toList)) = g1 ++ newName ++ g2 := by
  have e : ("$1".toList) ++ newName ++ ("$2".toList) =
      '$' :: '1' :: (newName ++ ("$2".toList)) := by simp
  rw [e]
  have h1 : expandTemplate [some g1, some g2] matched pre post
      ('$' :: '1' :: (newName ++ ("$2".toList))) =
        g1 ++ expandTemplate [some g1, some g2] matched pre post
          (newName ++ ("$2".toList)) := rfl
  have h2 : expandTemplate [some g1, some g2] matched pre post ("$2".toList) =
      g2 ++ [] := rfl
  rw [h1, expandTemplate_no_dollar _ _ _ _ _ _ hd, h2, List.append_nil,
    List.append_assoc]

theorem renameScan_eq_splice (old newName : Str) (hd : '$' ∉ newName) (fuel : Nat) :
    ∀ (pre s : Str),
      renameScanFuel old newName fuel pre s = spliceScanFuel old newName fuel s := by
  induction fuel with
  | zero => intro pre s; rfl
  | succ fuel2 ih =>
    intro pre s
    cases s with
    | nil => rfl
    | cons c rest =>
      unfold renameScanFuel spliceScanFuel
      cases ht : tryP6 old (c :: rest) with
      | some m =>
        dsimp only
        rw [expandTemplate_splice m.g1 m.g2 _ _ _ newName hd, ih]
      | none =>
        dsimp only
        rw [ih]

theorem replaceP6_eq_spliceP6 (old newName s : Str) (hd : '$' ∉ newName) :
    replaceP6 old newName s = spliceP6 old newName s :=
  renameScan_eq_splice old newName hd s.length [] s

theorem findNextSectionAux_le : ∀ (s : Str) (pos : Nat) (b : Bool) (j : Nat),
    findNextSectionAux pos b s = some j → j ≤ pos + s.length := by
  intro s
  induction s with
  | nil =>
    intro pos b j h
    simp [findNextSectionAux] at h
  | cons c rest ih =>
    intro pos b j h
    unfold findNextSectionAux at h
    by_cases hc : b = true ∧ ((litCS ("## ".toList) (c :: rest)).isSome : Prop)
    · rw [if_pos hc] at h
      have : j = pos := by simpa using h.symm
      simp only [List.length_cons, this]
      omega
    · rw [if_neg hc] at h
      have := ih (pos + 1) (isLineTerm c) j h
      simp only [List.length_cons]
      omega

theorem findNextSection_le (s : Str) (j : Nat) (h : findNextSection s = some j) :
    j ≤ s.length := by
  have := findNextSectionAux_le s 0 true j h
  simpa using this

theorem sectionContent_eq_body (content : Str) (i len : Nat)
    (hh : findHeader content = some (i, len)) :
    (content.drop (i + len)).take
        ((match findNextSection (content.drop (i + len)) with
          | some j => (i + len) + j
          | none => content.length) - (i + len)) = sectionBody content := by
  unfold sectionBody
  rw [hh]
  dsimp only
  cases hn : findNextSection (content.drop (i + len)) with
  | some j =>
    dsimp only
    rw [Nat.add_sub_cancel_left]
  | none =>
    dsimp only
    have hlen : (content.drop (i + len)).length = content.length - (i + len) :=
      List.length_drop _ _
    rw [← hlen, List.take_length]

theorem after_eq_body_drop (content : Str) (i len : Nat)
    (hh : findHeader content = some (i, len)) :
    content.drop
        (match findNextSection (content.drop (i + len)) with
        | some j => (i + len) + j
        | none => content.length) =
      content.drop ((i + len) + (sectionBody content).length) := by
  unfold sectionBody
  rw [hh]
  dsimp only
  cases hn : findNextSection (content.drop (i + len)) with
  | some j =>
    dsimp only
    have hj : j ≤ (content.drop (i + len)).length := findNextSection_le _ _ hn
    rw [List.length_take, Nat.min_eq_left hj]
  | none =>
    dsimp only
    rw [List.length_drop]
    by_cases hs : i + len ≤ content.length
    · congr 1
      omega
    · rw [List.drop_eq_nil_of_le (by omega), List.drop_eq_nil_of_le (by omega)]

theorem renameFile_spec (validDate : Str → Bool) (folderPrefix old newName : Str)
    (f : NoteFile) (hd : '$' ∉ newName) :
    renameFile validDate folderPrefix old newName f =
      (if fileMatchesRename validDate folderPrefix old f then
        spliceRewriteFile old newName f
       else f,
       fileMatchesRename validDate folderPrefix old f) := by
  unfold renameFile fileMatchesRename spliceRewriteFile
  by_cases hA : (".md".toList).isSuffixOf f.path = true
  · have hAs : (['.', 'm', 'd'] : Str) <:+ f.path := List.isSuffixOf_iff_suffix.mp hA
    rw [if_neg (by simp [hAs])]
    by_cases hB : folderPrefix ≠ [] ∧ ¬ folderPrefix.isPrefixOf f.path = true
    · rw [if_pos hB]
      rcases hB with ⟨h1, h2⟩
      have h2p : ¬ folderPrefix <+: f.path :=
        fun hp => h2 (List.isPrefixOf_iff_prefix.mpr hp)
      simp [hAs, h1, h2p]
    · rw [if_neg hB]
      have hBp : folderPrefix = [] ∨ folderPrefix <+: f.path := by
        by_cases hfp : folderPrefix = []
        · exact Or.inl hfp
        · push_neg at hB
          exact Or.inr (List.isPrefixOf_iff_prefix.mp (hB hfp))
      by_cases hC : validDate f.basename = true
      · rw [if_neg (by simp [hC])]
        cases hh : findHeader f.content with
        | none => simp [hAs, hBp, hC, hh]
        | some p =>
          cases p with
          | mk i len =>
            dsimp only
            by_cases hE : testP6 old (sectionBody f.content) = true
            · rw [sectionContent_eq_body f.content i len hh]
              rw [if_neg (by simp [hE])]
              rw [after_eq_body_drop f.content i len hh]
              rw [replaceP6_eq_spliceP6 old newName _ hd]
              simp [hAs, hBp, hC, hh, hE]
            · rw [sectionContent_eq_body f.content i len hh]
              have hE2 : testP6 old (sectionBody f.content) = false := by simpa using hE
              rw [if_pos (by simp [hE2])]
              simp [hAs, hBp, hC, hh, hE2]
      · rw [if_pos (by simp [hC])]
        have hC2 : validDate f.basename = false := by simpa using hC
        simp [hAs, hBp, hC2]
  · have hAn : ¬ (['.', 'm', 'd'] : Str) <:+ f.path :=
      fun hs => hA (List.isSuffixOf_iff_suffix.mpr hs)
    rw [if_pos (by simp [hAn])]
    simp [hAn]

/-- Claim C7, amended: provided the new name contains no dollar character
(dollar escapes in the replacement template are expanded by the string
replace, see the counterexample), renameHabit rewrites, in every markdown
document under the configured folder whose basename is a valid date and
whose habit section matches the old name, exactly the habit-name token of
each matching line — splicing the new name between the captured checkbox
marker and the captured value annotation, both preserved verbatim — leaves
all other documents untouched, and returns the number of documents whose
habit section contained a matching line (exactly the rewritten documents). -/
theorem renameHabit_splice_spec (validDate : Str → Bool)
    (folderPrefix old newName : Str) (files : List NoteFile)
    (hd : '$' ∉ newName) :
    renameHabit validDate folderPrefix old newName files =
      (files.map (fun f =>
        if fileMatchesRename validDate folderPrefix old f then
          spliceRewriteFile old newName f
        else f),
       (files.filter (fileMatchesRename validDate folderPrefix old)).length) := by
  unfold renameHabit
  have hf : ∀ g : NoteFile, renameFile validDate folderPrefix old newName g =
      (if fileMatchesRename validDate folderPrefix old g then
        spliceRewriteFile old newName g
       else g,
       fileMatchesRename validDate folderPrefix old g) :=
    fun g => renameFile_spec validDate folderPrefix old newName g hd
  dsimp only
  refine Prod.ext ?_ ?_
  · show (files.map (renameFile validDate folderPrefix old newName)).map Prod.fst = _
    rw [List.map_map]
    refine List.map_congr_left ?_
    intro g _
    show (renameFile validDate folderPrefix old newName g).1 = _
    rw [hf g]
  · show ((files.map (renameFile validDate folderPrefix old newName)).filter
        (fun r => r.2)).length = _
    rw [List.filter_map, List.length_map]
    congr 1
    refine List.filter_congr ?_
    intro g _
    show (renameFile validDate folderPrefix old newName g).2 = _
    rw [hf g]

theorem renameHabit_splice_spec_witness :
    ('$' ∉ ("Jog".toList)) ∧
    renameHabit (fun _ => true) [] ("Run".toList) ("Jog".toList)
        [⟨"2024-01-01.md".toList, "2024-01-01".toList,
          "## Habits\n- [x] Run (value: 5k)\n".toList⟩] =
      ([⟨"2024-01-01.md".toList, "2024-01-01".toList,
          "## Habits\n- [x] Run (value: 5k)\n".toList⟩].map (fun f =>
            if fileMatchesRename (fun _ => true) [] ("Run".toList) f then
              spliceRewriteFile ("Run".toList) ("Jog".toList) f
            else f),
       ([⟨"2024-01-01.md".toList, "2024-01-01".toList,
          "## Habits\n- [x] Run (value: 5k)\n".toList⟩].filter
            (fileMatchesRename (fun _ => true) [] ("Run".toList))).length) :=
  ⟨by decide,
   renameHabit_splice_spec (fun _ => true) [] ("Run".toList) ("Jog".toList)
     [⟨"2024-01-01.md".toList, "2024-01-01".toList,
       "## Habits\n- [x] Run (value: 5k)\n".toList⟩] (by decide)⟩
